import Mathlib

/-!
Shallow embedding of the CUDA tracing / pipeline visualization tools:
the offline analyzer of tools/visualize_pipeline.py (event matching,
categorization, ASCII timeline painting, flamegraph and Chrome-trace
export) and the live tracer of ebpf/cuda_tracer.py (per-thread call
depth bookkeeping and libcuda path discovery).

Timestamps and durations are modelled as rationals, Python ints as
Lean integers with explicit wraparound where the source uses u32
arithmetic, and Python exceptions as an explicit error type.
-/

/-- Trace event as parsed by visualize_pipeline.py (class CUDATraceEvent):
timestamp in seconds, function name, phase "B" or "E", optional
correlation id, optional thread id, nesting depth, and a details object
(modelled as an association list). -/
structure CUDATraceEvent where
  ts : ℚ
  name : String
  phase : String
  op_id : Option Int
  tid : Option Int
  depth : Int
  details : List (String × String)
deriving DecidableEq

/-- Completed operation dict built by PipelineAnalyzer.match_events:
keys name, start, end, duration, depth, details (the field end is
spelled end_ because end is a Lean keyword). -/
structure Operation where
  name : String
  start : ℚ
  end_ : ℚ
  duration : ℚ
  depth : Int
  details : List (String × String)
deriving DecidableEq

/-- Substring test on character lists: Python's `needle in haystack`. -/
def listContains (pat : List Char) : List Char → Bool
  | [] => pat.isPrefixOf []
  | c :: cs => pat.isPrefixOf (c :: cs) || listContains pat cs

/-- Python's substring operator `pat in hay` on strings. -/
def strContains (hay pat : String) : Bool :=
  listContains pat.toList hay.toList

/-- PipelineAnalyzer.categorize: ordered first-match-wins substring rules
mapping a function name to a category string. -/
def categorize (func_name : String) : String :=
  if strContains func_name "MemAlloc" || strContains func_name "MemFree" then
    "memory_mgmt"
  else if strContains func_name "Memcpy" then "transfer"
  else if strContains func_name "Launch" then "kernel"
  else if strContains func_name "Ctx" then "context"
  else if strContains func_name "Stream" then "stream"
  else if strContains func_name "Module" then "module"
  else if strContains func_name "Init" || strContains func_name "Device" then "init"
  else if strContains func_name "Synchronize" then "sync"
  else "other"

/-- Mutable state of PipelineAnalyzer.match_events: the pending-begin map
(local variable stack, op_id -> begin event), the categories map
(self.categories) and the completed-operation list (self.timeline). -/
structure AnalyzerState where
  stack : Option Int → Option CUDATraceEvent
  categories : String → List Operation
  timeline : List Operation

attribute [ext] AnalyzerState

/-- Fresh analyzer state: empty pending map, empty categories, empty timeline. -/
def initState : AnalyzerState :=
  { stack := fun _ => none, categories := fun _ => [], timeline := [] }

/-- Operation dict built in match_events when an end event pops its
pending begin event: name/details from the end event, start/depth from
the begin event, duration = end ts - begin ts. -/
def mkOperation (b e : CUDATraceEvent) : Operation :=
  { name := e.name
    start := b.ts
    end_ := e.ts
    duration := e.ts - b.ts
    depth := b.depth
    details := e.details }

/-- Body of the loop of PipelineAnalyzer.match_events for one scanned
event: a begin event inserts/overwrites the pending entry for its op_id;
an end event whose op_id is pending pops it and appends the completed
operation to the timeline and its category bucket; anything else is a
no-op. -/
def matchStep (s : AnalyzerState) (event : CUDATraceEvent) : AnalyzerState :=
  if event.phase = "B" then
    { s with stack := fun k => if k = event.op_id then some event else s.stack k }
  else if event.phase = "E" then
    match s.stack event.op_id with
    | some b =>
      let op := mkOperation b event
      { stack := fun k => if k = event.op_id then none else s.stack k
        categories := fun c =>
          if c = categorize event.name then s.categories c ++ [op] else s.categories c
        timeline := s.timeline ++ [op] }
    | none => s
  else s

/-- Scan of a list of events (already in processing order) through the
match_events loop, starting from the fresh analyzer state. -/
def processEvents (events : List CUDATraceEvent) : AnalyzerState :=
  events.foldl matchStep initState

/-- Python sorted(self.events, key=lambda e: e.ts): stable sort by
timestamp ascending. -/
def sortTs (events : List CUDATraceEvent) : List CUDATraceEvent :=
  events.mergeSort (fun a b => decide (a.ts ≤ b.ts))

/-- PipelineAnalyzer.match_events: sort all events by timestamp, then
scan them through the begin/end pairing loop. -/
def match_events (events : List CUDATraceEvent) : AnalyzerState :=
  processEvents (sortTs events)

/-- Number of end-phase events in a list. -/
def countEnds (events : List CUDATraceEvent) : Nat :=
  (events.filter (fun e => e.phase == "E")).length

/-- Python int() applied to a rational: truncation toward zero. -/
def pyInt (q : ℚ) : ℤ :=
  if q < 0 then -⌊-q⌋ else ⌊q⌋

/-- Line written by PipelineAnalyzer.generate_flamegraph_data for one
operation: "CUDA;<name> <count>" with count = int(duration * 1000000). -/
def flamegraphLine (op : Operation) : String :=
  "CUDA;" ++ op.name ++ " " ++ toString (pyInt (op.duration * 1000000))

/-- Python sorted(self.timeline, key=lambda x: x['start']): stable sort of
operations by start time. -/
def sortStart (timeline : List Operation) : List Operation :=
  timeline.mergeSort (fun a b => decide (a.start ≤ b.start))

/-- PipelineAnalyzer.generate_flamegraph_data: the sequence of lines
written to the output file, one per operation, sorted by start time. -/
def generate_flamegraph_data (timeline : List Operation) : List String :=
  (sortStart timeline).map flamegraphLine

/-- Entry of the Chrome Trace Event list built by generate_chrome_trace. -/
structure ChromeTraceEvent where
  name : String
  cat : String
  ph : String
  ts : ℚ
  pid : Int
  tid : Int
deriving DecidableEq

/-- Envelope object written by generate_chrome_trace. -/
structure ChromeTrace where
  traceEvents : List ChromeTraceEvent
deriving DecidableEq

/-- Begin entry appended for one operation: ph "B", ts = start seconds
converted to microseconds, constant pid and tid 1. -/
def chromeBegin (op : Operation) : ChromeTraceEvent :=
  { name := op.name, cat := categorize op.name, ph := "B"
    ts := op.start * 1000000, pid := 1, tid := 1 }

/-- End entry appended for one operation: ph "E", ts = end seconds
converted to microseconds, constant pid and tid 1. -/
def chromeEnd (op : Operation) : ChromeTraceEvent :=
  { name := op.name, cat := categorize op.name, ph := "E"
    ts := op.end_ * 1000000, pid := 1, tid := 1 }

/-- PipelineAnalyzer.generate_chrome_trace: for each timeline operation,
append its begin entry then its end entry, and wrap the resulting list
in the traceEvents envelope. -/
def generate_chrome_trace (timeline : List Operation) : ChromeTrace :=
  { traceEvents := timeline.foldl (fun acc op => acc ++ [chromeBegin op, chromeEnd op]) [] }

/-- Fixed lane width of the ASCII timeline (timeline_width = 80). -/
def timeline_width : Nat := 80

/-- Symbol table category_symbols of print_ascii_timeline, with the
dict.get default of the dot symbol for unknown categories. -/
def category_symbols (cat : String) : Char :=
  if cat = "init" then '▓'
  else if cat = "memory_mgmt" then '█'
  else if cat = "transfer" then '▒'
  else if cat = "kernel" then '●'
  else if cat = "sync" then '░'
  else if cat = "context" then '◆'
  else if cat = "stream" then '◇'
  else if cat = "module" then '▪'
  else if cat = "other" then '·'
  else '·'

/-- Normalization origin of print_ascii_timeline: start of the first
operation once sorted by start time (the source only reads it when the
timeline is non-empty; the empty case defaults to 0 here). -/
def ascii_start_time (timeline : List Operation) : ℚ :=
  match sortStart timeline with
  | [] => 0
  | o :: _ => o.start

/-- End of the painted range in print_ascii_timeline: the end field of
the last operation of the start-sorted list (0 for an empty timeline). -/
def ascii_end_time (timeline : List Operation) : ℚ :=
  match (sortStart timeline).getLast? with
  | none => 0
  | some o => o.end_

/-- Column start_pos of an operation: int(((start - start_time) /
total_duration) * timeline_width). -/
def start_pos (t0 total : ℚ) (op : Operation) : ℤ :=
  pyInt (((op.start - t0) / total) * 80)

/-- Column end_pos of an operation before the width adjustment:
int(((end - start_time) / total_duration) * timeline_width). -/
def end_pos_raw (t0 total : ℚ) (op : Operation) : ℤ :=
  pyInt (((op.end_ - t0) / total) * 80)

/-- Column end_pos after the zero-width adjustment: if start_pos ==
end_pos then end_pos = start_pos + 1. -/
def end_pos (t0 total : ℚ) (op : Operation) : ℤ :=
  if start_pos t0 total op = end_pos_raw t0 total op then
    start_pos t0 total op + 1
  else
    end_pos_raw t0 total op

/-- Integer interval [lo, hi) as a list, the loop range of the fill. -/
def intRange (lo hi : ℤ) : List ℤ :=
  (List.range (hi - lo).toNat).map (fun n : ℕ => lo + (n : ℤ))

/-- Columns visited by the fill loop of one operation:
range(start_pos, min(end_pos, timeline_width)). -/
def colRange (t0 total : ℚ) (op : Operation) : List ℤ :=
  intRange (start_pos t0 total op) (min (end_pos t0 total op) 80)

/-- Python list indexing into the 80-slot lane buffer: a negative index
counts from the end (the loop bound already keeps indices below 80, so
the source's guard i < len(timeline) is always true on the loop range). -/
def pyIdx (i : ℤ) : Nat :=
  (if i < 0 then 80 + i else i).toNat

/-- Fill loop of print_ascii_timeline for one operation: write the
operation's category symbol at every column of its range (the lane is
modelled as a function from slot index to character). -/
def paintOp (lane : Nat → Char) (t0 total : ℚ) (op : Operation) : Nat → Char :=
  (colRange t0 total op).foldl
    (fun tl i => fun p => if p = pyIdx i then category_symbols (categorize op.name) else tl p)
    lane

/-- Lane painting of one depth group: start from the blank lane and
paint each operation of the group in order. -/
def paintLane (ops : List Operation) (t0 total : ℚ) : Nat → Char :=
  ops.foldl (fun lane op => paintOp lane t0 total op) (fun _ => ' ')

/-- Modulus of the u32 arithmetic of the BPF program of cuda_tracer.py. -/
def U32_MOD : ℤ := 2 ^ 32

/-- BPF_HASH(call_depth, u32, u32) of cuda_tracer.py: per-thread-id call
depth, absent until the first update for that thread. -/
def DepthMap : Type := Nat → Option ℤ

/-- Depth map with no entries (fresh BPF hash). -/
def emptyDepthMap : DepthMap := fun _ => none

/-- trace_cuda_entry of the BPF program, restricted to the call_depth
bookkeeping: look up the thread's depth, add one (u32 wraparound) or
start at 1 when absent, store it back, and report it as the event depth. -/
def trace_cuda_entry (m : DepthMap) (tid : Nat) : DepthMap × ℤ :=
  let current_depth : ℤ :=
    match m tid with
    | some d => (d + 1) % U32_MOD
    | none => 1
  (fun t => if t = tid then some current_depth else m t, current_depth)

/-- trace_cuda_exit of the BPF program, restricted to the call_depth
bookkeeping: decrement the stored depth only when an entry exists and is
positive, reporting the pre-decrement value; otherwise leave the map
untouched and report the zero-initialized event depth. -/
def trace_cuda_exit (m : DepthMap) (tid : Nat) : DepthMap × ℤ :=
  match m tid with
  | some d =>
    if 0 < d then
      (fun t => if t = tid then some (d - 1) else m t, d)
    else
      (m, 0)
  | none => (m, 0)

/-- Item of an entry/exit call trace for the depth-tracking hooks. -/
inductive CudaCall where
  | enter (tid : Nat)
  | leave (tid : Nat)
deriving DecidableEq

/-- Run of a sequence of entry/exit hook invocations over the call_depth
map. -/
def runCalls (m : DepthMap) (calls : List CudaCall) : DepthMap :=
  calls.foldl
    (fun m c =>
      match c with
      | .enter tid => (trace_cuda_entry m tid).1
      | .leave tid => (trace_cuda_exit m tid).1)
    m

/-- Python exception classes relevant to the libcuda path search: the
RuntimeError the source raises, and the LibraryNotFoundError named by
the design document for the same failure. -/
inductive PyError where
  | RuntimeError (msg : String)
  | LibraryNotFoundError (msg : String)
deriving DecidableEq

/-- Recognizer for a raised LibraryNotFoundError. -/
def raisesLibraryNotFound : Except PyError String → Bool
  | .error (.LibraryNotFoundError _) => true
  | _ => false

/-- Hard-coded candidate locations possible_paths of
CUDATracer.find_libcuda_path, in source order. -/
def possible_paths : List String :=
  ["/lib/x86_64-linux-gnu/libcuda.so.1",
   "/usr/lib/x86_64-linux-gnu/libcuda.so.1",
   "/usr/lib64/libcuda.so.1",
   "/usr/local/cuda/lib64/libcuda.so.1"]

/-- Scan of the ldconfig -p output lines in find_libcuda_path: the first
line containing "libcuda.so" that splits on "=>" into more than one part
yields the stripped second part. -/
def ldconfigScan (lines : List String) : Option String :=
  lines.findSome? (fun line =>
    if strContains line "libcuda.so" then
      match line.splitOn "=>" with
      | _ :: p1 :: _ => some p1.trim
      | _ => none
    else none)

/-- CUDATracer.find_libcuda_path over an abstract environment: pathOk
models os.path.exists, ldconfig models the captured output lines of
ldconfig -p (none when the subprocess raises, which the source swallows).
The explicit known paths are tried in order, then the linker-cache scan;
if neither resolves, the RuntimeError of the source is raised. -/
def find_libcuda_path (pathOk : String → Bool) (ldconfig : Option (List String)) :
    Except PyError String :=
  match possible_paths.find? pathOk with
  | some path => .ok path
  | none =>
    match ldconfig with
    | some lines =>
      match ldconfigScan lines with
      | some path => .ok path
      | none => .error (.RuntimeError "Could not find libcuda.so")
    | none => .error (.RuntimeError "Could not find libcuda.so")

/-- Success test of the documented search order: some explicit known path
exists, or the linker-cache scan yields a path. -/
def search_resolves (pathOk : String → Bool) (ldconfig : Option (List String)) : Bool :=
  (possible_paths.find? pathOk).isSome ||
    (match ldconfig with
     | some lines => (ldconfigScan lines).isSome
     | none => false)

/-- Processing a non-begin event never touches the pending entry of a
different key, and a begin event only overwrites its own key. -/
theorem matchStep_stack_ne (s : AnalyzerState) (x : CUDATraceEvent) (k : Option Int)
    (hk : x.op_id ≠ k) : (matchStep s x).stack k = s.stack k := by
  unfold matchStep
  by_cases hB : x.phase = "B"
  · simp only [hB, if_true, if_pos rfl]
    exact if_neg (fun h => hk h.symm)
  · by_cases hE : x.phase = "E"
    · simp only [hB, hE, if_false, if_true]
      cases hs : s.stack x.op_id with
      | some b => simp only []; exact if_neg (fun h => hk h.symm)
      | none => rfl
    · simp only [hB, hE, if_false]

/-- Scanning a block of events none of which carries the key k leaves
the pending entry for k unchanged. -/
theorem foldl_stack_stable (l : List CUDATraceEvent) (s : AnalyzerState) (k : Option Int)
    (hl : ∀ x ∈ l, x.op_id ≠ k) :
    (l.foldl matchStep s).stack k = s.stack k := by
  induction l generalizing s with
  | nil => rfl
  | cons x l ih =>
    rw [List.foldl_cons, ih _ (fun y hy => hl y (List.mem_cons_of_mem x hy)),
      matchStep_stack_ne s x k (hl x (List.mem_cons_self x l))]

/-- Processing a begin event stores it as the pending entry for its key. -/
theorem matchStep_begin_stack (s : AnalyzerState) (b : CUDATraceEvent)
    (hb : b.phase = "B") : (matchStep s b).stack b.op_id = some b := by
  unfold matchStep
  simp [hb]

/-- Processing an end event whose key is pending appends exactly the
operation built from the stored begin event and this end event. -/
theorem matchStep_end_timeline (s : AnalyzerState) (e b : CUDATraceEvent)
    (he : e.phase = "E") (hs : s.stack e.op_id = some b) :
    (matchStep s e).timeline = s.timeline ++ [mkOperation b e] := by
  have hB : ¬ e.phase = "B" := by rw [he]; decide
  unfold matchStep
  simp [hB, he, hs]

/-- Processing an end event with no pending begin for its key is a
complete no-op on the analyzer state. -/
theorem matchStep_unmatched (s : AnalyzerState) (e : CUDATraceEvent)
    (he : e.phase = "E") (hs : s.stack e.op_id = none) :
    matchStep s e = s := by
  have hB : ¬ e.phase = "B" := by rw [he]; decide
  unfold matchStep
  simp [hB, he, hs]

/-- Begin event of the two-line example log of the spec. -/
def exB : CUDATraceEvent :=
  { ts := 0, name := "cuInit", phase := "B", op_id := some 1, tid := none,
    depth := 0, details := [] }

/-- End event of the two-line example log of the spec. -/
def exE : CUDATraceEvent :=
  { ts := 1/2, name := "cuInit", phase := "E", op_id := some 1, tid := none,
    depth := 0, details := [] }

/-- Two-line example log of the spec: a begin at ts 0 and a matching end
at ts 0.5 sharing op_id 1. -/
def exLog : List CUDATraceEvent := [exB, exE]

/-- C10: when a begin and its matching end share an op_id but differ in
their other fields, the emitted operation takes its name and details
from the end event, while start and depth come from the stored begin
event, and duration is end ts minus begin ts. -/
theorem match_events_c10 (s : AnalyzerState) (b e : CUDATraceEvent)
    (he : e.phase = "E") (hs : s.stack e.op_id = some b) :
    (matchStep s e).timeline =
      s.timeline ++
        [{ name := e.name, start := b.ts, end_ := e.ts, duration := e.ts - b.ts,
           depth := b.depth, details := e.details }] :=
  matchStep_end_timeline s e b he hs

/-- Witness for C10 at a concrete state: the pending begin exB is popped
by the end event exE and yields the single paired operation. -/
theorem match_events_c10_witness :
    (matchStep (processEvents [exB]) exE).timeline =
      (processEvents [exB]).timeline ++
        [{ name := exE.name, start := exB.ts, end_ := exE.ts,
           duration := exE.ts - exB.ts, depth := exB.depth, details := exE.details }] :=
  match_events_c10 (processEvents [exB]) exB exE rfl rfl

/-- Counterexample to C2 as stated: the name cuMemAllocStreamSynchronize
contains both "Stream" and "Synchronize", yet categorize resolves it to
memory_mgmt, because the MemAlloc rule fires first. -/
theorem categorize_c2_counterexample :
    strContains "cuMemAllocStreamSynchronize" "Stream" = true ∧
    strContains "cuMemAllocStreamSynchronize" "Synchronize" = true ∧
    categorize "cuMemAllocStreamSynchronize" = "memory_mgmt" ∧
    categorize "cuMemAllocStreamSynchronize" ≠ "stream" := by
  refine ⟨by decide, by decide, by decide, by decide⟩

/-- C2 (amended): categorize is a deterministic pure function of the
name, and a name containing both "Stream" and "Synchronize" that matches
none of the four earlier rules (MemAlloc, MemFree, Memcpy, Launch, Ctx)
resolves to stream, because rule 5 precedes rule 8. -/
theorem categorize_c2 (name : String)
    (h1 : strContains name "MemAlloc" = false)
    (h2 : strContains name "MemFree" = false)
    (h3 : strContains name "Memcpy" = false)
    (h4 : strContains name "Launch" = false)
    (h5 : strContains name "Ctx" = false)
    (h6 : strContains name "Stream" = true)
    (h7 : strContains name "Synchronize" = true) :
    categorize name = "stream" ∧ categorize name = categorize name := by
  refine ⟨?_, rfl⟩
  unfold categorize
  rw [h1, h2, h3, h4, h5, h6]
  rfl

/-- Witness for C2 at cuStreamSynchronize: the hypotheses hold and the
category is stream. -/
theorem categorize_c2_witness :
    categorize "cuStreamSynchronize" = "stream" ∧
    categorize "cuStreamSynchronize" = categorize "cuStreamSynchronize" :=
  categorize_c2 "cuStreamSynchronize" (by decide) (by decide) (by decide)
    (by decide) (by decide) (by decide) (by decide)

/-- Counterexample to C9 as stated: in an environment where no explicit
known path exists and the linker-cache query fails, find_libcuda_path
raises RuntimeError, not LibraryNotFoundError. -/
theorem find_libcuda_c9_counterexample :
    find_libcuda_path (fun _ => false) none =
      .error (.RuntimeError "Could not find libcuda.so") ∧
    raisesLibraryNotFound (find_libcuda_path (fun _ => false) none) = false := by
  exact ⟨rfl, rfl⟩

/-- C9 (amended): when the documented search order (the fixed list of
explicit known paths, then the ldconfig linker-cache scan) resolves no
path, find_libcuda_path fails by raising RuntimeError (the error that
aborts the live trace session); when any step of the search order
resolves a path, no error is raised. -/
theorem find_libcuda_c9 (pathOk : String → Bool) (ld : Option (List String))
    (pathOk2 : String → Bool) (ld2 : Option (List String))
    (hfail : search_resolves pathOk ld = false)
    (hok : search_resolves pathOk2 ld2 = true) :
    find_libcuda_path pathOk ld = .error (.RuntimeError "Could not find libcuda.so") ∧
    ∃ path, find_libcuda_path pathOk2 ld2 = .ok path := by
  constructor
  · unfold search_resolves at hfail
    unfold find_libcuda_path
    cases hfind : possible_paths.find? pathOk with
    | some p => rw [hfind] at hfail; simp at hfail
    | none =>
      rw [hfind] at hfail
      simp only [Option.isSome_none, Bool.false_or] at hfail
      cases ld with
      | none => rfl
      | some lines =>
        cases hscan : ldconfigScan lines with
        | some p => simp [hscan] at hfail
        | none => simp [hscan]
  · unfold search_resolves at hok
    unfold find_libcuda_path
    cases hfind : possible_paths.find? pathOk2 with
    | some p => exact ⟨p, rfl⟩
    | none =>
      rw [hfind] at hok
      simp only [Option.isSome_none, Bool.false_or] at hok
      cases ld2 with
      | none => simp at hok
      | some lines =>
        cases hscan : ldconfigScan lines with
        | none => simp [hscan] at hok
        | some p => exact ⟨p, by simp [hscan]⟩

/-- Witness for C9: a concrete unresolvable environment raises the
RuntimeError, and a concrete environment whose first known path exists
resolves without error. -/
theorem find_libcuda_c9_witness :
    find_libcuda_path (fun _ => false) none =
      .error (.RuntimeError "Could not find libcuda.so") ∧
    ∃ path, find_libcuda_path (fun _ => true) none = .ok path :=
  find_libcuda_c9 (fun _ => false) none (fun _ => true) none rfl rfl

/-- C1: scanning a begin event and a later end event sharing its op_id,
with no other event of that op_id between them, appends exactly one
operation for the pair, whose start is the begin ts, end is the end ts
and duration is end minus start; on the concrete two-line log exLog the
matching yields exactly one operation with duration one half. -/
theorem match_events_c1
    (l1 : List CUDATraceEvent) (b : CUDATraceEvent) (l2 : List CUDATraceEvent)
    (e : CUDATraceEvent)
    (hb : b.phase = "B") (he : e.phase = "E") (hke : e.op_id = b.op_id)
    (hl2 : ∀ x ∈ l2, x.op_id ≠ b.op_id) :
    ((processEvents (l1 ++ b :: l2 ++ [e])).timeline =
      (processEvents (l1 ++ b :: l2)).timeline ++
        [{ name := e.name, start := b.ts, end_ := e.ts, duration := e.ts - b.ts,
           depth := b.depth, details := e.details }]) ∧
    (match_events exLog).timeline =
      [{ name := "cuInit", start := 0, end_ := 1/2, duration := 1/2, depth := 0,
         details := [] }] := by
  constructor
  · have hsplit : l1 ++ b :: l2 ++ [e] = (l1 ++ b :: l2) ++ [e] := by simp
    rw [hsplit]
    unfold processEvents
    rw [List.foldl_append]
    have hstack : ((l1 ++ b :: l2).foldl matchStep initState).stack e.op_id = some b := by
      rw [hke]
      have h1 : l1 ++ b :: l2 = (l1 ++ [b]) ++ l2 := by simp
      rw [h1, List.foldl_append, foldl_stack_stable l2 _ _ hl2, List.foldl_append]
      exact matchStep_begin_stack _ b hb
    rw [List.foldl_cons, List.foldl_nil,
      matchStep_end_timeline _ e b he hstack]
    rfl
  · have hsort : sortTs exLog = [exB, exE] := by
      norm_num [sortTs, exLog, exB, exE, List.mergeSort]
    unfold match_events
    rw [hsort]
    have hB : (matchStep initState exB) =
        { initState with stack := fun k => if k = some 1 then some exB else none } := by
      unfold matchStep initState exB
      norm_num
    unfold processEvents
    rw [List.foldl_cons, List.foldl_cons, List.foldl_nil, hB,
      matchStep_end_timeline _ exE exB rfl rfl]
    unfold mkOperation exB exE initState
    norm_num

/-- Witness for C1 on the two-line log: the begin exB at ts 0 and the
end exE at ts 0.5 pair into exactly one appended operation. -/
theorem match_events_c1_witness :
    ((processEvents ([] ++ exB :: [] ++ [exE])).timeline =
      (processEvents ([] ++ exB :: [])).timeline ++
        [{ name := exE.name, start := exB.ts, end_ := exE.ts,
           duration := exE.ts - exB.ts, depth := exB.depth, details := exE.details }]) ∧
    (match_events exLog).timeline =
      [{ name := "cuInit", start := 0, end_ := 1/2, duration := 1/2, depth := 0,
         details := [] }] :=
  match_events_c1 [] exB [] exE rfl rfl rfl (by simp)

/-- Count of end-phase events distributes over cons. -/
theorem countEnds_cons (x : CUDATraceEvent) (l : List CUDATraceEvent) :
    countEnds (x :: l) = (if x.phase == "E" then 1 else 0) + countEnds l := by
  unfold countEnds
  rw [List.filter_cons]
  by_cases h : x.phase == "E"
  · simp [h]
    omega
  · simp [h]

/-- Count of end-phase events distributes over append. -/
theorem countEnds_append (a b : List CUDATraceEvent) :
    countEnds (a ++ b) = countEnds a + countEnds b := by
  unfold countEnds
  rw [List.filter_append, List.length_append]

/-- Sorting by timestamp does not change the number of end events. -/
theorem countEnds_sortTs (es : List CUDATraceEvent) :
    countEnds (sortTs es) = countEnds es := by
  unfold countEnds sortTs
  exact ((List.mergeSort_perm es _).filter _).length_eq

/-- One scan step grows the timeline by at most one operation, and only
on an end event. -/
theorem matchStep_timeline_le (s : AnalyzerState) (x : CUDATraceEvent) :
    (matchStep s x).timeline.length ≤
      s.timeline.length + (if x.phase == "E" then 1 else 0) := by
  unfold matchStep
  by_cases hB : x.phase = "B"
  · simp [hB]
  · by_cases hE : x.phase = "E"
    · simp only [hB, if_false, hE, if_true]
      cases hs : s.stack x.op_id with
      | some b => simp [hE]
      | none => simp
    · simp [hB, hE]

/-- Scanning a block of events grows the timeline by at most the number
of end events in the block. -/
theorem foldl_timeline_le (l : List CUDATraceEvent) (s : AnalyzerState) :
    (l.foldl matchStep s).timeline.length ≤ s.timeline.length + countEnds l := by
  induction l generalizing s with
  | nil => simp [countEnds]
  | cons x l ih =>
    rw [List.foldl_cons, countEnds_cons]
    calc ((l.foldl matchStep (matchStep s x)).timeline.length : Nat)
        ≤ (matchStep s x).timeline.length + countEnds l := ih _
      _ ≤ s.timeline.length + (if x.phase == "E" then 1 else 0) + countEnds l := by
          have := matchStep_timeline_le s x
          omega
      _ = s.timeline.length + ((if x.phase == "E" then 1 else 0) + countEnds l) := by omega

/-- C4: an end event with no pending begin for its key leaves the whole
analyzer state (timeline, categories and pending map) unchanged, and
whenever the timestamp-sorted scan reaches such an unmatched end event,
the total number of operations matched from the log is strictly less
than its number of end events. -/
theorem match_events_c4
    (s : AnalyzerState) (e : CUDATraceEvent)
    (es l1 : List CUDATraceEvent) (e2 : CUDATraceEvent) (l2 : List CUDATraceEvent)
    (he : e.phase = "E") (hs : s.stack e.op_id = none)
    (hsplit : sortTs es = l1 ++ e2 :: l2)
    (he2 : e2.phase = "E") (hs2 : (processEvents l1).stack e2.op_id = none) :
    matchStep s e = s ∧
    (match_events es).timeline.length < countEnds es := by
  refine ⟨matchStep_unmatched s e he hs, ?_⟩
  unfold match_events
  rw [hsplit]
  unfold processEvents
  rw [List.foldl_append, List.foldl_cons]
  have hstep : matchStep (l1.foldl matchStep initState) e2 = l1.foldl matchStep initState :=
    matchStep_unmatched _ e2 he2 hs2
  rw [hstep]
  have h1 : (l1.foldl matchStep initState).timeline.length ≤ 0 + countEnds l1 :=
    foldl_timeline_le l1 initState
  have h2 : (l2.foldl matchStep (l1.foldl matchStep initState)).timeline.length ≤
      (l1.foldl matchStep initState).timeline.length + countEnds l2 :=
    foldl_timeline_le l2 _
  have h3 : countEnds es = countEnds l1 + (1 + countEnds l2) := by
    rw [← countEnds_sortTs es, hsplit, countEnds_append, countEnds_cons]
    simp [he2]
  omega

/-- Witness for C4: a log consisting of a single end event matches zero
operations, strictly fewer than its one end event, and the scan step on
it is a no-op. -/
theorem match_events_c4_witness :
    matchStep (processEvents []) exE = processEvents [] ∧
    (match_events [exE]).timeline.length < countEnds [exE] :=
  match_events_c4 (processEvents []) exE [exE] [] exE [] rfl rfl
    (by norm_num [sortTs, List.mergeSort]) rfl rfl


/-- Case equation of the scan step on a begin event. -/
theorem matchStep_B_eq (s : AnalyzerState) (x : CUDATraceEvent) (hb : x.phase = "B") :
    matchStep s x =
      { s with stack := fun k => if k = x.op_id then some x else s.stack k } := by
  unfold matchStep
  rw [if_pos hb]

/-- Case equation of the scan step on an end event whose key is pending. -/
theorem matchStep_E_some_eq (s : AnalyzerState) (x b : CUDATraceEvent)
    (he : x.phase = "E") (hs : s.stack x.op_id = some b) :
    matchStep s x =
      { stack := fun k => if k = x.op_id then none else s.stack k
        categories := fun c =>
          if c = categorize x.name then s.categories c ++ [mkOperation b x]
          else s.categories c
        timeline := s.timeline ++ [mkOperation b x] } := by
  have hB : ¬ x.phase = "B" := by rw [he]; decide
  unfold matchStep
  rw [if_neg hB, if_pos he, hs]

/-- Case equation of the scan step on an event that is neither a begin
nor an end. -/
theorem matchStep_other_eq (s : AnalyzerState) (x : CUDATraceEvent)
    (hB : ¬ x.phase = "B") (hE : ¬ x.phase = "E") :
    matchStep s x = s := by
  unfold matchStep
  rw [if_neg hB, if_neg hE]

/-- Two analyzer states that agree on the timeline, the categories and
every pending key other than k. -/
def AgreeExcept (k : Option Int) (s t : AnalyzerState) : Prop :=
  s.timeline = t.timeline ∧ s.categories = t.categories ∧
    ∀ k2, k2 ≠ k → s.stack k2 = t.stack k2

/-- One scan step on an event that does not carry the key k preserves
agreement away from k. -/
theorem agreeExcept_matchStep (k : Option Int) (s t : AnalyzerState)
    (x : CUDATraceEvent) (hx : x.op_id ≠ k) (h : AgreeExcept k s t) :
    AgreeExcept k (matchStep s x) (matchStep t x) := by
  obtain ⟨htl, hcat, hst⟩ := h
  by_cases hB : x.phase = "B"
  · rw [matchStep_B_eq s x hB, matchStep_B_eq t x hB]
    refine ⟨htl, hcat, fun k2 hk2 => ?_⟩
    by_cases hq : k2 = x.op_id
    · simp [hq]
    · simp only [if_neg hq]
      exact hst k2 hk2
  · by_cases hE : x.phase = "E"
    · have hlook : s.stack x.op_id = t.stack x.op_id := hst x.op_id hx
      cases hs : s.stack x.op_id with
      | some b =>
        have ht : t.stack x.op_id = some b := hlook.symm.trans hs
        rw [matchStep_E_some_eq s x b hE hs, matchStep_E_some_eq t x b hE ht]
        refine ⟨by rw [htl], by rw [hcat], fun k2 hk2 => ?_⟩
        by_cases hq : k2 = x.op_id
        · simp [hq]
        · simp only [if_neg hq]
          exact hst k2 hk2
      | none =>
        have ht : t.stack x.op_id = none := hlook.symm.trans hs
        rw [matchStep_unmatched s x hE hs, matchStep_unmatched t x hE ht]
        exact ⟨htl, hcat, hst⟩
    · rw [matchStep_other_eq s x hB hE, matchStep_other_eq t x hB hE]
      exact ⟨htl, hcat, hst⟩

/-- Scanning a block of events none of which carries the key k preserves
agreement away from k. -/
theorem agreeExcept_foldl (k : Option Int) (l : List CUDATraceEvent)
    (hl : ∀ x ∈ l, x.op_id ≠ k) (s t : AnalyzerState) (h : AgreeExcept k s t) :
    AgreeExcept k (l.foldl matchStep s) (l.foldl matchStep t) := by
  induction l generalizing s t with
  | nil => exact h
  | cons x l ih =>
    rw [List.foldl_cons, List.foldl_cons]
    exact ih (fun y hy => hl y (List.mem_cons_of_mem x hy)) _ _
      (agreeExcept_matchStep k s t x (hl x (List.mem_cons_self x l)) h)

/-- States agreeing away from k become equal once a begin event carrying
the key k is processed in both: the overwrite erases the difference. -/
theorem agreeExcept_begin_eq (k : Option Int) (s t : AnalyzerState)
    (b : CUDATraceEvent) (hb : b.phase = "B") (hbk : b.op_id = k)
    (h : AgreeExcept k s t) : matchStep s b = matchStep t b := by
  obtain ⟨htl, hcat, hst⟩ := h
  rw [matchStep_B_eq s b hb, matchStep_B_eq t b hb]
  refine AnalyzerState.ext ?_ hcat htl
  funext k2
  by_cases hq : k2 = b.op_id
  · simp [hq]
  · simp only [if_neg hq]
    exact hst k2 (fun hc => hq (hc.trans hbk.symm))

/-- C3: a begin event inserts or overwrites the pending entry for its
op_id (so the pending map holds at most one open begin per key), a
second begin with the same op_id arriving before its matching end
replaces the first, and the overwritten first begin never contributes to
the analyzer result: the scan of the log with the first begin deleted
produces the identical final state. -/
theorem match_events_c3
    (s : AnalyzerState) (b : CUDATraceEvent)
    (l1 : List CUDATraceEvent) (b1 : CUDATraceEvent) (l2 : List CUDATraceEvent)
    (b2 : CUDATraceEvent) (l3 : List CUDATraceEvent)
    (hb : b.phase = "B")
    (hb1 : b1.phase = "B") (hb2 : b2.phase = "B")
    (hk : b2.op_id = b1.op_id)
    (hl2 : ∀ x ∈ l2, x.op_id ≠ b1.op_id) :
    (matchStep s b).stack b.op_id = some b ∧
    (processEvents (l1 ++ b1 :: l2 ++ [b2])).stack b1.op_id = some b2 ∧
    processEvents (l1 ++ b1 :: l2 ++ b2 :: l3) = processEvents (l1 ++ l2 ++ b2 :: l3) := by
  refine ⟨matchStep_begin_stack s b hb, ?_, ?_⟩
  · have hsplit : l1 ++ b1 :: l2 ++ [b2] = (l1 ++ b1 :: l2) ++ [b2] := by simp
    rw [hsplit]
    unfold processEvents
    rw [List.foldl_append, List.foldl_cons, List.foldl_nil, ← hk]
    exact matchStep_begin_stack _ b2 hb2
  · unfold processEvents
    have hL : l1 ++ b1 :: l2 ++ b2 :: l3 = l1 ++ (b1 :: (l2 ++ b2 :: l3)) := by simp
    have hR : l1 ++ l2 ++ b2 :: l3 = l1 ++ (l2 ++ b2 :: l3) := by simp
    rw [hL, hR, List.foldl_append, List.foldl_append, List.foldl_cons,
      List.foldl_append, List.foldl_append, List.foldl_cons, List.foldl_cons]
    have hagree0 : AgreeExcept b1.op_id
        (matchStep (l1.foldl matchStep initState) b1) (l1.foldl matchStep initState) := by
      rw [matchStep_B_eq _ b1 hb1]
      refine ⟨rfl, rfl, fun k2 hk2 => ?_⟩
      simp only [if_neg hk2]
    have hagree : AgreeExcept b1.op_id
        (l2.foldl matchStep (matchStep (l1.foldl matchStep initState) b1))
        (l2.foldl matchStep (l1.foldl matchStep initState)) :=
      agreeExcept_foldl b1.op_id l2 hl2 _ _ hagree0
    rw [agreeExcept_begin_eq b1.op_id _ _ b2 hb2 hk hagree]

/-- Witness for C3: with two begins sharing op_id 1 and nothing in
between, the pending entry after the scan holds the second begin, and
deleting the first begin leaves the analyzer result unchanged. -/
theorem match_events_c3_witness :
    (matchStep initState exB).stack exB.op_id = some exB ∧
    (processEvents ([] ++ exB :: [] ++ [exB])).stack exB.op_id = some exB ∧
    processEvents ([] ++ exB :: [] ++ exB :: [exE]) =
      processEvents ([] ++ [] ++ exB :: [exE]) :=
  match_events_c3 initState exB [] exB [] exB [exE] rfl rfl rfl rfl (by simp)

/-- Accumulator form of the trace-event building loop. -/
theorem chrome_foldl_acc (tl : List Operation) (acc : List ChromeTraceEvent) :
    tl.foldl (fun acc op => acc ++ [chromeBegin op, chromeEnd op]) acc =
      acc ++ tl.foldl (fun acc op => acc ++ [chromeBegin op, chromeEnd op]) [] := by
  induction tl generalizing acc with
  | nil => simp
  | cons op tl ih =>
    rw [List.foldl_cons, List.foldl_cons, ih (acc ++ _), ih ([] ++ _)]
    simp

/-- The trace-event list of a cons timeline starts with the begin and
end entries of its head. -/
theorem chrome_trace_cons (op : Operation) (tl : List Operation) :
    (generate_chrome_trace (op :: tl)).traceEvents =
      chromeBegin op :: chromeEnd op :: (generate_chrome_trace tl).traceEvents := by
  unfold generate_chrome_trace
  rw [List.foldl_cons, chrome_foldl_acc]
  simp

/-- C6: the trace-viewer export of a timeline of K operations produces
exactly 2K entries in the traceEvents envelope; the entry at slot 2i is
the begin entry of operation i (ph "B", ts = start seconds times one
million) and the entry at slot 2i+1 is its end entry (ph "E", ts = end
seconds times one million), both carrying the operation's name, its
category, and constant pid 1, tid 1. -/
theorem generate_chrome_trace_c6 (tl : List Operation) (i : Nat) (op : Operation)
    (h : tl[i]? = some op) :
    (generate_chrome_trace tl).traceEvents.length = 2 * tl.length ∧
    (generate_chrome_trace tl).traceEvents[2 * i]? = some (chromeBegin op) ∧
    (generate_chrome_trace tl).traceEvents[2 * i + 1]? = some (chromeEnd op) ∧
    chromeBegin op = { name := op.name, cat := categorize op.name, ph := "B",
                       ts := op.start * 1000000, pid := 1, tid := 1 } ∧
    chromeEnd op = { name := op.name, cat := categorize op.name, ph := "E",
                     ts := op.end_ * 1000000, pid := 1, tid := 1 } := by
  refine ⟨?_, ?_, ?_, rfl, rfl⟩
  · clear h
    induction tl with
    | nil => rfl
    | cons op2 tl ih =>
      rw [chrome_trace_cons]
      simp only [List.length_cons, ih]
      omega
  · induction tl generalizing i with
    | nil => simp at h
    | cons op2 tl ih =>
      rw [chrome_trace_cons]
      cases i with
      | zero =>
        simp only [List.getElem?_cons_zero, Option.some.injEq] at h
        simp [h]
      | succ j =>
        simp only [List.getElem?_cons_succ] at h
        have h2 : 2 * (j + 1) = (2 * j) + 1 + 1 := by omega
        rw [h2, List.getElem?_cons_succ, List.getElem?_cons_succ]
        exact ih j h
  · induction tl generalizing i with
    | nil => simp at h
    | cons op2 tl ih =>
      rw [chrome_trace_cons]
      cases i with
      | zero =>
        simp only [List.getElem?_cons_zero, Option.some.injEq] at h
        simp [h]
      | succ j =>
        simp only [List.getElem?_cons_succ] at h
        have h2 : 2 * (j + 1) + 1 = (2 * j + 1) + 1 + 1 := by omega
        rw [h2, List.getElem?_cons_succ, List.getElem?_cons_succ]
        exact ih j h

/-- Example completed operation used by the export witnesses. -/
def exOp : Operation :=
  { name := "cuInit", start := 0, end_ := 1/2, duration := 1/2, depth := 0, details := [] }

/-- Witness for C6 on a one-operation timeline: two entries, the begin
entry at slot 0 and the end entry at slot 1. -/
theorem generate_chrome_trace_c6_witness :
    (generate_chrome_trace [exOp]).traceEvents.length = 2 * [exOp].length ∧
    (generate_chrome_trace [exOp]).traceEvents[2 * 0]? = some (chromeBegin exOp) ∧
    (generate_chrome_trace [exOp]).traceEvents[2 * 0 + 1]? = some (chromeEnd exOp) ∧
    chromeBegin exOp = { name := exOp.name, cat := categorize exOp.name, ph := "B",
                         ts := exOp.start * 1000000, pid := 1, tid := 1 } ∧
    chromeEnd exOp = { name := exOp.name, cat := categorize exOp.name, ph := "E",
                       ts := exOp.end_ * 1000000, pid := 1, tid := 1 } :=
  generate_chrome_trace_c6 [exOp] 0 exOp rfl

/-- Python truncation agrees with the mathematical floor on nonnegative
values. -/
theorem pyInt_nonneg (q : ℚ) (h : 0 ≤ q) : pyInt q = ⌊q⌋ := by
  unfold pyInt
  rw [if_neg (not_lt.mpr h)]

/-- C7: the flamegraph export writes exactly one line per operation, each
of the form "CUDA;<name> <count>" with count the duration in seconds
times one million, truncated with floor to an integer number of
microseconds (durations of completed operations are nonnegative). -/
theorem generate_flamegraph_data_c7 (tl : List Operation)
    (hpos : ∀ op ∈ tl, 0 ≤ op.duration) :
    (generate_flamegraph_data tl).length = tl.length ∧
    (∀ op ∈ tl,
      ("CUDA;" ++ op.name ++ " " ++ toString ⌊op.duration * 1000000⌋) ∈
        generate_flamegraph_data tl) ∧
    (∀ line ∈ generate_flamegraph_data tl, ∃ op ∈ tl,
      line = "CUDA;" ++ op.name ++ " " ++ toString ⌊op.duration * 1000000⌋) := by
  have hline : ∀ op ∈ tl, flamegraphLine op =
      "CUDA;" ++ op.name ++ " " ++ toString ⌊op.duration * 1000000⌋ := by
    intro op hop
    unfold flamegraphLine
    rw [pyInt_nonneg _ (mul_nonneg (hpos op hop) (by norm_num))]
  refine ⟨?_, ?_, ?_⟩
  · unfold generate_flamegraph_data sortStart
    rw [List.length_map, List.length_mergeSort]
  · intro op hop
    rw [← hline op hop]
    unfold generate_flamegraph_data
    exact List.mem_map_of_mem _ (by rw [sortStart, List.mem_mergeSort]; exact hop)
  · intro line hline2
    unfold generate_flamegraph_data at hline2
    obtain ⟨op, hop, hEq⟩ := List.mem_map.mp hline2
    rw [sortStart, List.mem_mergeSort] at hop
    exact ⟨op, hop, by rw [← hEq, hline op hop]⟩

/-- Witness for C7: a one-operation timeline of duration one half second
yields exactly one line, carrying floor(500000) microseconds. -/
theorem generate_flamegraph_data_c7_witness :
    (generate_flamegraph_data [exOp]).length = [exOp].length ∧
    (∀ op ∈ [exOp],
      ("CUDA;" ++ op.name ++ " " ++ toString ⌊op.duration * 1000000⌋) ∈
        generate_flamegraph_data [exOp]) ∧
    (∀ line ∈ generate_flamegraph_data [exOp], ∃ op ∈ [exOp],
      line = "CUDA;" ++ op.name ++ " " ++ toString ⌊op.duration * 1000000⌋) :=
  generate_flamegraph_data_c7 [exOp]
    (by intro op hop; rw [List.mem_singleton] at hop; rw [hop]; norm_num [exOp])

/-- Every depth stored in the map is a valid u32 value: nonnegative and
below the wraparound modulus. -/
def DepthInv (m : DepthMap) : Prop :=
  ∀ t d, m t = some d → 0 ≤ d ∧ d < U32_MOD

/-- The empty depth map satisfies the bounds invariant. -/
theorem depthInv_empty : DepthInv emptyDepthMap := by
  intro t d h
  exact absurd h (by unfold emptyDepthMap; simp)

/-- The entry hook preserves the depth bounds. -/
theorem depthInv_entry (m : DepthMap) (tid : Nat) (h : DepthInv m) :
    DepthInv (trace_cuda_entry m tid).1 := by
  intro t d hd
  unfold trace_cuda_entry at hd
  simp only at hd
  by_cases ht : t = tid
  · rw [if_pos ht] at hd
    cases hm : m tid with
    | some d0 =>
      rw [hm] at hd
      simp only [Option.some.injEq] at hd
      subst hd
      constructor
      · exact Int.emod_nonneg _ (by unfold U32_MOD; norm_num)
      · exact Int.emod_lt_of_pos _ (by unfold U32_MOD; norm_num)
    | none =>
      rw [hm] at hd
      simp only [Option.some.injEq] at hd
      subst hd
      exact ⟨by norm_num, by unfold U32_MOD; norm_num⟩
  · rw [if_neg ht] at hd
    exact h t d hd

/-- The exit hook preserves the depth bounds. -/
theorem depthInv_exit (m : DepthMap) (tid : Nat) (h : DepthInv m) :
    DepthInv (trace_cuda_exit m tid).1 := by
  intro t d hd
  cases hm : m tid with
  | some d0 =>
    by_cases hpos : 0 < d0
    · simp only [trace_cuda_exit, hm, if_pos hpos] at hd
      by_cases ht : t = tid
      · rw [if_pos ht] at hd
        simp only [Option.some.injEq] at hd
        have := h tid d0 hm
        omega
      · rw [if_neg ht] at hd
        exact h t d hd
    · simp only [trace_cuda_exit, hm, if_neg hpos] at hd
      exact h t d hd
  | none =>
    simp only [trace_cuda_exit, hm] at hd
    exact h t d hd

/-- A whole run of entry/exit hook invocations preserves the depth
bounds. -/
theorem depthInv_runCalls (calls : List CudaCall) (m : DepthMap) (h : DepthInv m) :
    DepthInv (runCalls m calls) := by
  induction calls generalizing m with
  | nil => exact h
  | cons c calls ih =>
    unfold runCalls
    rw [List.foldl_cons]
    cases c with
    | enter tid => exact ih _ (depthInv_entry m tid h)
    | leave tid => exact ih _ (depthInv_exit m tid h)

/-- Runs compose over list append. -/
theorem runCalls_append (m : DepthMap) (a b : List CudaCall) :
    runCalls m (a ++ b) = runCalls (runCalls m a) b := by
  unfold runCalls
  exact List.foldl_append _ _ a b

/-- Running k entry hooks for a thread whose depth is d, with no
wraparound reached, raises its depth to d + k. -/
theorem runCalls_enter_replicate (k : Nat) (m : DepthMap) (tid : Nat) (d : ℤ)
    (hm : m tid = some d) (h0 : 0 ≤ d) (hlt : d + k < U32_MOD) :
    runCalls m (List.replicate k (.enter tid)) tid = some (d + k) := by
  induction k generalizing m d with
  | zero =>
    unfold runCalls
    simpa using hm
  | succ n ih =>
    rw [List.replicate_succ]
    unfold runCalls
    rw [List.foldl_cons]
    have hstep : (trace_cuda_entry m tid).1 tid = some (d + 1) := by
      unfold trace_cuda_entry
      simp [hm]
      exact Int.emod_eq_of_lt (by omega) (by push_cast at hlt ⊢; omega)
    have := ih (trace_cuda_entry m tid).1 (d + 1) hstep (by omega)
      (by push_cast at hlt ⊢; omega)
    unfold runCalls at this
    rw [this]
    congr 1
    push_cast
    ring

/-- Running k exit hooks for a thread whose depth is at least k lowers
its depth by k. -/
theorem runCalls_leave_replicate (k : Nat) (m : DepthMap) (tid : Nat) (d : ℤ)
    (hm : m tid = some d) (hk : (k : ℤ) ≤ d) :
    runCalls m (List.replicate k (.leave tid)) tid = some (d - k) := by
  induction k generalizing m d with
  | zero =>
    unfold runCalls
    simpa using hm
  | succ n ih =>
    rw [List.replicate_succ]
    unfold runCalls
    rw [List.foldl_cons]
    have hpos : 0 < d := by push_cast at hk; omega
    have hstep : (trace_cuda_exit m tid).1 tid = some (d - 1) := by
      unfold trace_cuda_exit
      simp [hm, hpos]
    have := ih (trace_cuda_exit m tid).1 (d - 1) hstep (by push_cast at hk ⊢; omega)
    unfold runCalls at this
    rw [this]
    congr 1
    push_cast
    ring

/-- C5: along any run of entry/exit hooks from a fresh map, every stored
per-thread call depth is nonnegative; an exit that finds depth 0 leaves
the map untouched (the guard floors the depth at 0 instead of going
negative, even if the entry was missed); and a well-nested block of N
entries followed by N exits on one thread returns that thread's depth to
exactly 0. -/
theorem call_depth_c5
    (calls : List CudaCall) (t1 : Nat) (d : ℤ)
    (m2 : DepthMap) (t2 : Nat)
    (m3 : DepthMap) (t3 : Nat) (N : Nat)
    (h1 : runCalls emptyDepthMap calls t1 = some d)
    (h2 : m2 t2 = some 0)
    (h3 : m3 t3 = none) (h4 : 0 < N) (h5 : (N : ℤ) < U32_MOD) :
    0 ≤ d ∧
    trace_cuda_exit m2 t2 = (m2, 0) ∧
    runCalls m3 (List.replicate N (.enter t3) ++ List.replicate N (.leave t3)) t3 =
      some 0 := by
  refine ⟨?_, ?_, ?_⟩
  · exact (depthInv_runCalls calls emptyDepthMap depthInv_empty t1 d h1).1
  · unfold trace_cuda_exit
    rw [h2]
    norm_num
  · obtain ⟨n, rfl⟩ : ∃ n, N = n + 1 := ⟨N - 1, by omega⟩
    rw [runCalls_append]
    have hfirst : runCalls m3 (List.replicate (n + 1) (.enter t3)) t3 =
        some ((1 : ℤ) + (n : ℤ)) := by
      rw [List.replicate_succ]
      have hstep : (trace_cuda_entry m3 t3).1 t3 = some 1 := by
        unfold trace_cuda_entry
        simp [h3]
      have hrest := runCalls_enter_replicate n (trace_cuda_entry m3 t3).1 t3 1 hstep
        (by omega) (by push_cast at h5 ⊢; omega)
      unfold runCalls at hrest ⊢
      rw [List.foldl_cons]
      exact hrest
    have hdown := runCalls_leave_replicate (n + 1)
      (runCalls m3 (List.replicate (n + 1) (.enter t3))) t3 (1 + n) hfirst
      (by push_cast; omega)
    rw [hdown]
    congr 1
    push_cast
    ring

/-- Witness for C5: the run enter, leave, leave on thread 0 ends at depth
0 and never goes negative; an exit at stored depth 0 is a no-op; two
entries then two exits on thread 9 return its depth to 0. -/
theorem call_depth_c5_witness :
    (0 : ℤ) ≤ 0 ∧
    trace_cuda_exit (fun t => if t = 5 then some 0 else none) 5 =
      ((fun t => if t = 5 then some 0 else none), 0) ∧
    runCalls emptyDepthMap
      (List.replicate 2 (.enter 9) ++ List.replicate 2 (.leave 9)) 9 = some 0 :=
  call_depth_c5 [.enter 0, .leave 0, .leave 0] 0 0
    (fun t => if t = 5 then some 0 else none) 5
    emptyDepthMap 9 2
    (by simp [runCalls, emptyDepthMap, trace_cuda_entry, trace_cuda_exit, U32_MOD])
    (by norm_num) rfl (by norm_num) (by unfold U32_MOD; norm_num)

/-- A slot already holding the symbol keeps it through any further
writes of the same symbol. -/
theorem paint_preserve (cols : List ℤ) (lane : Nat → Char) (c : Char) (p : Nat)
    (hp : lane p = c) :
    (cols.foldl (fun tl i => fun q => if q = pyIdx i then c else tl q) lane) p = c := by
  induction cols generalizing lane with
  | nil => exact hp
  | cons j cols ih =>
    rw [List.foldl_cons]
    refine ih _ ?_
    by_cases hq : p = pyIdx j
    · simp [hq]
    · simp only [if_neg hq]
      exact hp

/-- Every column of the write list ends up holding the symbol. -/
theorem paint_mem (cols : List ℤ) (lane : Nat → Char) (c : Char) :
    ∀ i ∈ cols,
      (cols.foldl (fun tl i => fun q => if q = pyIdx i then c else tl q) lane)
        (pyIdx i) = c := by
  induction cols generalizing lane with
  | nil => intro i hi; simp at hi
  | cons j cols ih =>
    intro i hi
    rw [List.foldl_cons]
    rcases List.mem_cons.mp hi with hij | hmem
    · subst hij
      exact paint_preserve cols _ c (pyIdx i) (by simp)
    · exact ih _ i hmem

/-- Members of an integer interval list lie in the interval. -/
theorem mem_intRange (lo hi i : ℤ) (h : i ∈ intRange lo hi) : lo ≤ i ∧ i < hi := by
  unfold intRange at h
  obtain ⟨n, hn, rfl⟩ := List.mem_map.mp h
  rw [List.mem_range] at hn
  have hn2 : (n : ℤ) < ((hi - lo).toNat : ℤ) := by exact_mod_cast hn
  omega

/-- A nondegenerate integer interval list is nonempty. -/
theorem intRange_ne_nil (lo hi : ℤ) (h : lo < hi) : intRange lo hi ≠ [] := by
  unfold intRange
  intro hcon
  rw [List.map_eq_nil_iff, List.range_eq_nil] at hcon
  omega

/-- C8 (amended): with a positive total duration, every operation whose
start lies in [start_time, end_time) paints at least one column — the
zero-width adjustment guarantees a nonempty column range inside the
80-column lane and every covered column receives the operation's
category symbol; an operation whose start coincides with the end of the
overall range is excluded: its range maps to the one-past-last column
and the fill loop covers nothing (see the counterexample). -/
theorem ascii_paint_c8 (t0 tEnd : ℚ) (op : Operation) (lane : Nat → Char)
    (h0 : t0 ≤ op.start) (h1 : op.start ≤ op.end_) (h2 : op.start < tEnd) :
    colRange t0 (tEnd - t0) op ≠ [] ∧
    ∀ i ∈ colRange t0 (tEnd - t0) op,
      0 ≤ i ∧ i < 80 ∧ pyIdx i = i.toNat ∧
      paintOp lane t0 (tEnd - t0) op (pyIdx i) =
        category_symbols (categorize op.name) := by
  set total := tEnd - t0 with htotal
  have htot : 0 < total := by rw [htotal]; linarith
  set q1 : ℚ := ((op.start - t0) / total) * 80 with hq1def
  set q2 : ℚ := ((op.end_ - t0) / total) * 80 with hq2def
  have hq1 : 0 ≤ q1 := by
    rw [hq1def]
    exact mul_nonneg (div_nonneg (by linarith) htot.le) (by norm_num)
  have hq12 : q1 ≤ q2 := by
    rw [hq1def, hq2def]
    exact mul_le_mul_of_nonneg_right
      ((div_le_div_right htot).mpr (by linarith)) (by norm_num)
  have hq1lt : q1 < 80 := by
    rw [hq1def]
    calc ((op.start - t0) / total) * 80 < 1 * 80 := by
          exact mul_lt_mul_of_pos_right
            ((div_lt_one htot).mpr (by linarith)) (by norm_num)
      _ = 80 := by norm_num
  have hsp_eq : start_pos t0 total op = ⌊q1⌋ := by
    unfold start_pos
    rw [← hq1def]
    exact pyInt_nonneg q1 hq1
  have hep_eq : end_pos_raw t0 total op = ⌊q2⌋ := by
    unfold end_pos_raw
    rw [← hq2def]
    exact pyInt_nonneg q2 (le_trans hq1 hq12)
  have hsp0 : 0 ≤ start_pos t0 total op := by
    rw [hsp_eq]
    exact Int.floor_nonneg.mpr hq1
  have hsp80 : start_pos t0 total op < 80 := by
    rw [hsp_eq]
    exact Int.floor_lt.mpr (by exact_mod_cast hq1lt)
  have hraw : start_pos t0 total op ≤ end_pos_raw t0 total op := by
    rw [hsp_eq, hep_eq]
    exact Int.floor_le_floor hq12
  have hep1 : start_pos t0 total op + 1 ≤ end_pos t0 total op := by
    unfold end_pos
    by_cases heq : start_pos t0 total op = end_pos_raw t0 total op
    · rw [if_pos heq]
    · rw [if_neg heq]
      omega
  have hlt : start_pos t0 total op < min (end_pos t0 total op) 80 := by
    omega
  refine ⟨intRange_ne_nil _ _ hlt, fun i hi => ?_⟩
  have hmem := mem_intRange _ _ i hi
  have h0i : 0 ≤ i := le_trans hsp0 hmem.1
  have h80 : i < 80 := by omega
  have hidx : pyIdx i = i.toNat := by
    unfold pyIdx
    rw [if_neg (not_lt.mpr h0i)]
  exact ⟨h0i, h80, hidx, paint_mem _ lane _ i hi⟩

/-- Witness for C8 at a concrete in-range operation: painting the blank
lane with an operation spanning the whole [0,1] range covers nonempty
columns, each receiving its category symbol. -/
theorem ascii_paint_c8_witness :
    colRange 0 ((1 : ℚ) - 0) exOp ≠ [] ∧
    ∀ i ∈ colRange 0 ((1 : ℚ) - 0) exOp,
      0 ≤ i ∧ i < 80 ∧ pyIdx i = i.toNat ∧
      paintOp (fun _ => ' ') 0 ((1 : ℚ) - 0) exOp (pyIdx i) =
        category_symbols (categorize exOp.name) :=
  ascii_paint_c8 0 1 exOp (fun _ => ' ')
    (by norm_num [exOp]) (by norm_num [exOp]) (by norm_num [exOp])

/-- First operation of the counterexample timeline: spans the whole
[0,1] range. -/
def opA8 : Operation :=
  { name := "cuInit", start := 0, end_ := 1, duration := 1, depth := 0, details := [] }

/-- Second operation of the counterexample timeline: a zero-width span
starting exactly at the end of the overall range. -/
def opB8 : Operation :=
  { name := "cuInit", start := 1, end_ := 1, duration := 0, depth := 0, details := [] }

/-- Counterexample timeline: non-empty, total duration 1. -/
def exTl8 : List Operation := [opA8, opB8]

/-- Counterexample to C8 as stated: in the non-empty timeline exTl8 with
positive total duration, the operation opB8, whose start coincides with
the end of the overall time range, maps to the empty column range
(start and end both land on the one-past-last column 80), so the fill
loop paints no column at all for it. -/
theorem ascii_c8_counterexample :
    ascii_start_time exTl8 = 0 ∧
    ascii_end_time exTl8 = 1 ∧
    opB8.start = ascii_end_time exTl8 ∧
    colRange (ascii_start_time exTl8)
      (ascii_end_time exTl8 - ascii_start_time exTl8) opB8 = [] ∧
    paintOp (fun _ => ' ') (ascii_start_time exTl8)
      (ascii_end_time exTl8 - ascii_start_time exTl8) opB8 = (fun _ => ' ') := by
  have hsort : sortStart exTl8 = [opA8, opB8] := by
    norm_num [sortStart, exTl8, List.mergeSort, opA8, opB8]
  have hst : ascii_start_time exTl8 = 0 := by
    unfold ascii_start_time
    rw [hsort]
    rfl
  have hen : ascii_end_time exTl8 = 1 := by
    unfold ascii_end_time
    rw [hsort]
    rfl
  have hcol : colRange (ascii_start_time exTl8)
      (ascii_end_time exTl8 - ascii_start_time exTl8) opB8 = [] := by
    rw [hst, hen]
    have hsp : start_pos 0 (1 - 0) opB8 = 80 := by
      unfold start_pos pyInt opB8
      norm_num
    have hraw : end_pos_raw 0 (1 - 0) opB8 = 80 := by
      unfold end_pos_raw pyInt opB8
      norm_num
    have hep : end_pos 0 (1 - 0) opB8 = 81 := by
      unfold end_pos
      rw [hsp, hraw, if_pos rfl]
      norm_num
    unfold colRange
    rw [hsp, hep]
    norm_num [intRange]
  refine ⟨hst, hen, by rw [hen]; rfl, hcol, ?_⟩
  unfold paintOp
  rw [hcol]
  rfl
